import Mathlib

/-!
Shallow embedding of the metaimport vanity-import redirector
(montag451/metaimport). The engine modelled here is the final variant:
the request handler with the NbComponents gate and longest-prefix rule
selection, the rule-table construction performed in main (NbComponents
defaulting and template compilation), and the required-field validation
of the validator variant (src/main.go).

Strings are Lean strings; Go strings.Split, strings.HasPrefix and
strings.Join are re-implemented structurally over the character list so
that concrete instances evaluate inside the kernel. Go len(s) is a byte
count; every length comparison made by the engine is between prefixes
of one common package name, and such strings form a chain under the
prefix order, on which byte order and character order agree, so
character counts are used.
-/

/-- One configured rule: Go struct importPath of the final variant, with
fields Prefix, NbComponents (a Go int, hence Int here), VCS and
RepoTemplate. The first field is called pfx because its Go name
collides with a Lean keyword. -/
structure importPath where
  pfx : String
  nbComponents : Int
  VCS : String
  repoTemplate : String
deriving DecidableEq

/-- Character-level worker for strings.Split with a one-character
separator; acc holds the current field in reverse. -/
def splitCharsAux (sep : Char) : List Char → List Char → List (List Char)
  | [], acc => [acc.reverse]
  | c :: cs, acc =>
      if c = sep then acc.reverse :: splitCharsAux sep cs []
      else splitCharsAux sep cs (c :: acc)

/-- Go strings.Split(s, "/"). -/
def splitSlash (s : String) : List String :=
  (splitCharsAux '/' s.data []).map String.mk

/-- Go strings.Join(elems, "/"). -/
def joinSlash : List String → String
  | [] => ""
  | [s] => s
  | s :: rest => s ++ "/" ++ joinSlash rest

/-- Go strings.HasPrefix(s, pre). -/
def hasPfx (s pre : String) : Bool :=
  pre.data.isPrefixOf s.data

/-- The candidate gate of the selection loop in handler: NbComponents
at most the number of components, and the package name starts with the
rule's Prefix. -/
def isCandidate (pkg : String) (nc : Nat) (r : importPath) : Prop :=
  r.nbComponents ≤ (nc : Int) ∧ hasPfx pkg r.pfx = true

instance (pkg : String) (nc : Nat) (r : importPath) :
    Decidable (isCandidate pkg nc r) :=
  inferInstanceAs (Decidable (r.nbComponents ≤ (nc : Int) ∧ hasPfx pkg r.pfx = true))

/-- State of the selection loop in handler: the winner so far (Go: p
and pi, merged into one option since p starts out nil) and pl, the
length of the best prefix so far. -/
structure loopState where
  winner : Option (Nat × importPath)
  pl : Nat
deriving DecidableEq

/-- The selection loop of handler: a rule that passes the gate and
whose prefix is at least as long as the best so far becomes the winner
(the Go comparison len(path.Prefix) >= pl, so a later candidate of
equal length replaces an earlier one). -/
def selectAux (pkg : String) (nc : Nat) :
    List importPath → Nat → loopState → loopState
  | [], _, s => s
  | r :: rest, i, s =>
      selectAux pkg nc rest (i + 1)
        (if isCandidate pkg nc r ∧ s.pl ≤ r.pfx.length
          then ⟨some (i, r), r.pfx.length⟩ else s)

/-- Rule selection over the whole table, as run by handler. -/
def selectRule (paths : List importPath) (pkg : String) :
    Option (Nat × importPath) :=
  (selectAux pkg (splitSlash pkg).length paths 0 ⟨none, 0⟩).winner

/-- The per-request result: Go struct metaImport with fields Prefix,
VCS, Repo; the first field is called pfx (keyword collision). -/
structure metaImport where
  pfx : String
  VCS : String
  repo : String
deriving DecidableEq

/-- The outer HTML skeleton: a fixed template interpolating the three
fields of metaImport into the go-import meta tag. HTML escaping by the
template engine is not modelled; no claim concerns the escaped bytes.
Because the skeleton is fixed and its rendering total, the
InternalServerError branch of handler is unreachable in this model. -/
def mainPage (mi : metaImport) : String :=
  "<html><head><meta name=\"go-import\" content=\"" ++ mi.pfx ++ " "
    ++ mi.VCS ++ " " ++ mi.repo ++ "\"></head><body></body></html>"

/-- HTTP outcomes produced by handler. -/
inductive Outcome where
  | badRequest
  | notFound
  | ok (mi : metaImport) (body : String)
  | internalError
deriving DecidableEq

/-- The resolution core of handler, everything after the go-get check:
select a rule, execute its compiled repo template on the components
(render k cs models Go mainTemplate.ExecuteTemplate of compiled
template number k, with failure as none), and build the metaImport.
A none result is the not-found outcome. -/
def resolve (render : Nat → List String → Option String)
    (paths : List importPath) (pkg : String) : Option metaImport :=
  match selectRule paths pkg with
  | none => none
  | some (k, r) =>
    match render k (splitSlash pkg) with
    | none => none
    | some repo =>
        some ⟨joinSlash ((splitSlash pkg).take r.nbComponents.toNat), r.VCS, repo⟩

/-- Go handler: reject unless the go-get query parameter is "1"
(Query().Get returns "" for a missing parameter, modelled by
Option.getD), then resolve host + urlPath and render the page. -/
def handler (render : Nat → List String → Option String)
    (paths : List importPath) (goGet : Option String)
    (host urlPath : String) : Outcome :=
  if goGet.getD "" ≠ "1" then .badRequest
  else
    match resolve render paths (host ++ urlPath) with
    | none => .notFound
    | some mi => .ok mi (mainPage mi)

/-- The NbComponents defaulting performed by main on each rule: if
NbComponents <= 0 it becomes the number of slash-separated components
of Prefix. -/
def defaultNbComponents (p : importPath) : importPath :=
  if p.nbComponents ≤ 0 then
    { p with nbComponents := ((splitSlash p.pfx).length : Int) }
  else p

/-- Rule-table construction in main: default NbComponents, and compile
each rule's repo template (template.Must panics on a parse error, so
the process starts only when every template parses; parses models the
external template engine's parser). No other check is made on the
rules. -/
def buildRules (parses : String → Bool) (cfg : List importPath) :
    Option (List importPath) :=
  if cfg.all (fun p => parses p.repoTemplate) then
    some (cfg.map defaultNbComponents)
  else none

/-- Rule shape of the validator variant (src/main.go), which has no
NbComponents field. -/
structure importPathV where
  pfx : String
  VCS : String
  repoTemplate : String
deriving DecidableEq

/-- The required validation tags of src/main.go on Prefix and
RepoTemplate: required for a string means not the zero value, i.e.
non-empty. -/
def validRule (p : importPathV) : Bool :=
  (p.pfx != "") && (p.repoTemplate != "")

/-- The min=1,dive validation on Paths in src/main.go: at least one
rule, and every rule individually valid. Validation failure is fatal
before serving begins. -/
def validPaths (l : List importPathV) : Bool :=
  decide (1 ≤ l.length) && l.all validRule

/-- The best-so-far prefix length never decreases along the loop. -/
theorem selectAux_pl_mono (pkg : String) (nc : Nat) :
    ∀ (l : List importPath) (i : Nat) (s : loopState),
      s.pl ≤ (selectAux pkg nc l i s).pl := by
  intro l
  induction l with
  | nil => intro i s; exact le_refl _
  | cons p rest ih =>
    intro i s
    simp only [selectAux]
    by_cases h : isCandidate pkg nc p ∧ s.pl ≤ p.pfx.length
    · rw [if_pos h]
      exact le_trans h.2 (ih (i + 1) ⟨some (i, p), p.pfx.length⟩)
    · rw [if_neg h]
      exact ih (i + 1) s

/-- After the loop, the best prefix length dominates the prefix length
of every candidate in the processed list. -/
theorem selectAux_ub (pkg : String) (nc : Nat) :
    ∀ (l : List importPath) (i : Nat) (s : loopState) (r : importPath),
      r ∈ l → isCandidate pkg nc r →
      r.pfx.length ≤ (selectAux pkg nc l i s).pl := by
  intro l
  induction l with
  | nil => intro i s r hr; exact absurd hr (List.not_mem_nil r)
  | cons p rest ih =>
    intro i s r hr hc
    simp only [selectAux]
    rcases List.mem_cons.mp hr with he | ht
    · subst he
      by_cases h : isCandidate pkg nc r ∧ s.pl ≤ r.pfx.length
      · rw [if_pos h]
        exact selectAux_pl_mono pkg nc rest (i + 1) ⟨some (i, r), r.pfx.length⟩
      · rw [if_neg h]
        have hlt : ¬ s.pl ≤ r.pfx.length := fun hle => h ⟨hc, hle⟩
        exact le_trans (le_of_lt (Nat.lt_of_not_le hlt))
          (selectAux_pl_mono pkg nc rest (i + 1) s)
    · exact ih (i + 1) _ r ht hc

/-- If every candidate left in the list is strictly shorter than the
best so far, the loop leaves the state unchanged. -/
theorem selectAux_frozen (pkg : String) (nc : Nat) :
    ∀ (l : List importPath) (i : Nat) (s : loopState),
      (∀ r ∈ l, isCandidate pkg nc r → r.pfx.length < s.pl) →
      selectAux pkg nc l i s = s := by
  intro l
  induction l with
  | nil => intro i s _; rfl
  | cons p rest ih =>
    intro i s hlt
    simp only [selectAux]
    have hnc : ¬ (isCandidate pkg nc p ∧ s.pl ≤ p.pfx.length) := by
      rintro ⟨hc, hle⟩
      exact absurd hle (Nat.not_le_of_lt (hlt p (List.mem_cons_self p rest) hc))
    rw [if_neg hnc]
    exact ih (i + 1) s (fun r hr hc => hlt r (List.mem_cons_of_mem p hr) hc)

/-- The loop either leaves the state untouched, or the winner is a
candidate taken from the list, at its real index, with the best length
equal to that winner's prefix length. -/
theorem selectAux_shape (pkg : String) (nc : Nat) :
    ∀ (l : List importPath) (i : Nat) (s : loopState),
      ((selectAux pkg nc l i s).winner = s.winner ∧
        (selectAux pkg nc l i s).pl = s.pl) ∨
      ∃ j r, l.get? j = some r ∧ isCandidate pkg nc r ∧
        (selectAux pkg nc l i s).winner = some (i + j, r) ∧
        (selectAux pkg nc l i s).pl = r.pfx.length := by
  intro l
  induction l with
  | nil => intro i s; exact Or.inl ⟨rfl, rfl⟩
  | cons p rest ih =>
    intro i s
    simp only [selectAux]
    by_cases h : isCandidate pkg nc p ∧ s.pl ≤ p.pfx.length
    · rw [if_pos h]
      rcases ih (i + 1) ⟨some (i, p), p.pfx.length⟩ with ⟨hw, hp⟩ | ⟨j, r, hj, hc, hw, hp⟩
      · refine Or.inr ⟨0, p, rfl, h.1, ?_, ?_⟩
        · rw [hw, Nat.add_zero]
        · rw [hp]
      · refine Or.inr ⟨j + 1, r, by simpa using hj, hc, ?_, hp⟩
        have harith : (i + 1) + j = i + (j + 1) := by omega
        rw [hw, harith]
    · rw [if_neg h]
      rcases ih (i + 1) s with ⟨hw, hp⟩ | ⟨j, r, hj, hc, hw, hp⟩
      · exact Or.inl ⟨hw, hp⟩
      · refine Or.inr ⟨j + 1, r, by simpa using hj, hc, ?_, hp⟩
        have harith : (i + 1) + j = i + (j + 1) := by omega
        rw [hw, harith]

/-- Once the winner is set it is never cleared. -/
theorem selectAux_some_mono (pkg : String) (nc : Nat) :
    ∀ (l : List importPath) (i : Nat) (s : loopState),
      s.winner.isSome → ((selectAux pkg nc l i s).winner).isSome := by
  intro l
  induction l with
  | nil => intro i s h; exact h
  | cons p rest ih =>
    intro i s h
    simp only [selectAux]
    by_cases hc : isCandidate pkg nc p ∧ s.pl ≤ p.pfx.length
    · rw [if_pos hc]; exact ih (i + 1) ⟨some (i, p), p.pfx.length⟩ rfl
    · rw [if_neg hc]; exact ih (i + 1) s h

/-- A candidate at least as long as the best so far guarantees the loop
ends with a winner. -/
theorem selectAux_isSome (pkg : String) (nc : Nat) :
    ∀ (l : List importPath) (i : Nat) (s : loopState) (r : importPath),
      r ∈ l → isCandidate pkg nc r → s.pl ≤ r.pfx.length →
      ((selectAux pkg nc l i s).winner).isSome := by
  intro l
  induction l with
  | nil => intro i s r hr; exact absurd hr (List.not_mem_nil r)
  | cons p rest ih =>
    intro i s r hr hc hpl
    simp only [selectAux]
    rcases List.mem_cons.mp hr with he | ht
    · subst he
      rw [if_pos ⟨hc, hpl⟩]
      exact selectAux_some_mono pkg nc rest (i + 1) ⟨some (i, r), r.pfx.length⟩ rfl
    · by_cases h : isCandidate pkg nc p ∧ s.pl ≤ p.pfx.length
      · rw [if_pos h]
        exact selectAux_some_mono pkg nc rest (i + 1) ⟨some (i, p), p.pfx.length⟩ rfl
      · rw [if_neg h]
        exact ih (i + 1) s r ht hc hpl

/-- Full characterization of the loop on the winning index: if rj at
index j is a candidate, no candidate is longer, every candidate after j
is strictly shorter, and the incoming best length does not exceed rj's,
then the loop ends exactly with rj as winner. -/
theorem selectAux_last (pkg : String) (nc : Nat) :
    ∀ (l : List importPath) (i : Nat) (s : loopState) (j : Nat) (rj : importPath),
      l.get? j = some rj → isCandidate pkg nc rj → s.pl ≤ rj.pfx.length →
      (∀ k rk, l.get? k = some rk → isCandidate pkg nc rk →
        rk.pfx.length ≤ rj.pfx.length) →
      (∀ k rk, l.get? k = some rk → j < k → isCandidate pkg nc rk →
        rk.pfx.length < rj.pfx.length) →
      selectAux pkg nc l i s = ⟨some (i + j, rj), rj.pfx.length⟩ := by
  intro l
  induction l with
  | nil => intro i s j rj hj; simp [List.get?] at hj
  | cons p rest ih =>
    intro i s j rj hj hc hpl hmax hlast
    simp only [selectAux]
    cases j with
    | zero =>
      have hp : p = rj := by simpa using hj
      subst hp
      rw [if_pos ⟨hc, hpl⟩]
      have hfr : ∀ r ∈ rest, isCandidate pkg nc r →
          r.pfx.length < (⟨some (i, p), p.pfx.length⟩ : loopState).pl := by
        intro r hr hcr
        rcases List.mem_iff_get?.mp hr with ⟨k, hk⟩
        exact hlast (k + 1) r (by simpa using hk) (Nat.succ_pos k) hcr
      rw [selectAux_frozen pkg nc rest (i + 1) _ hfr, Nat.add_zero]
    | succ j' =>
      have hj' : rest.get? j' = some rj := by simpa using hj
      have hmax' : ∀ k rk, rest.get? k = some rk → isCandidate pkg nc rk →
          rk.pfx.length ≤ rj.pfx.length :=
        fun k rk hk hck => hmax (k + 1) rk (by simpa using hk) hck
      have hlast' : ∀ k rk, rest.get? k = some rk → j' < k → isCandidate pkg nc rk →
          rk.pfx.length < rj.pfx.length :=
        fun k rk hk hlt hck => hlast (k + 1) rk (by simpa using hk) (by omega) hck
      have harith : (i + 1) + j' = i + (j' + 1) := by omega
      by_cases h : isCandidate pkg nc p ∧ s.pl ≤ p.pfx.length
      · rw [if_pos h]
        have hres := ih (i + 1) ⟨some (i, p), p.pfx.length⟩ j' rj hj' hc
          (hmax 0 p rfl h.1) hmax' hlast'
        rw [hres, harith]
      · rw [if_neg h]
        have hres := ih (i + 1) s j' rj hj' hc hpl hmax' hlast'
        rw [hres, harith]

/-- splitCharsAux always produces at least one field. -/
theorem splitCharsAux_ne_nil (sep : Char) :
    ∀ (cs acc : List Char), splitCharsAux sep cs acc ≠ [] := by
  intro cs
  induction cs with
  | nil => intro acc h; cases h
  | cons c cs ih =>
    intro acc
    unfold splitCharsAux
    by_cases hc : c = sep
    · rw [if_pos hc]; intro h; cases h
    · rw [if_neg hc]; exact ih (c :: acc)

/-- Go strings.Split never returns an empty slice. -/
theorem splitSlash_length_pos (s : String) : 0 < (splitSlash s).length := by
  unfold splitSlash
  rw [List.length_map]
  exact List.length_pos.mpr (splitCharsAux_ne_nil '/' s.data [])

/-- A proper prefix of a string is strictly shorter than it. -/
theorem pfx_proper_lt (a b : String) (h : hasPfx b a = true) (hne : a ≠ b) :
    a.length < b.length := by
  unfold hasPfx at h
  have hp : a.data <+: b.data := by rwa [List.isPrefixOf_iff_prefix] at h
  rcases lt_or_eq_of_le hp.length_le with hlt | heq
  · exact hlt
  · exact absurd (String.ext (hp.eq_of_length heq)) hne

/-- defaultNbComponents only touches NbComponents. -/
theorem defaultNb_pfx (p : importPath) : (defaultNbComponents p).pfx = p.pfx := by
  unfold defaultNbComponents; split <;> rfl

theorem defaultNb_vcs (p : importPath) : (defaultNbComponents p).VCS = p.VCS := by
  unfold defaultNbComponents; split <;> rfl

theorem defaultNb_tmpl (p : importPath) :
    (defaultNbComponents p).repoTemplate = p.repoTemplate := by
  unfold defaultNbComponents; split <;> rfl

/-- defaultNbComponents on a non-positive NbComponents. -/
theorem defaultNb_of_nonpos (p : importPath) (h : p.nbComponents ≤ 0) :
    (defaultNbComponents p).nbComponents = ((splitSlash p.pfx).length : Int) := by
  unfold defaultNbComponents; rw [if_pos h]

/-- defaultNbComponents keeps a positive NbComponents. -/
theorem defaultNb_of_pos (p : importPath) (h : 0 < p.nbComponents) :
    (defaultNbComponents p).nbComponents = p.nbComponents := by
  unfold defaultNbComponents; rw [if_neg (by omega)]

/-- A successful buildRules is the NbComponents-defaulted table. -/
theorem buildRules_eq (parses : String → Bool) (cfg rt : List importPath)
    (h : buildRules parses cfg = some rt) :
    rt = cfg.map defaultNbComponents := by
  unfold buildRules at h
  by_cases hall : cfg.all (fun p => parses p.repoTemplate) = true
  · rw [if_pos hall] at h; injection h with h'; exact h'.symm
  · rw [if_neg hall] at h; cases h

/-- Every rule stored by buildRules has a positive NbComponents. -/
theorem buildRules_nb_pos (parses : String → Bool) (cfg rt : List importPath)
    (h : buildRules parses cfg = some rt) :
    ∀ r ∈ rt, 0 < r.nbComponents := by
  intro r hr
  rw [buildRules_eq parses cfg rt h] at hr
  rcases List.mem_map.mp hr with ⟨p, _, hpd⟩
  rw [← hpd]
  by_cases h0 : p.nbComponents ≤ 0
  · rw [defaultNb_of_nonpos p h0]
    have := splitSlash_length_pos p.pfx
    omega
  · rw [defaultNb_of_pos p (by omega)]
    omega

/-- The winner returned by selectRule sits at its index in the table,
passes the candidate gate, and its prefix is at least as long as that
of any candidate in the table. -/
theorem selectRule_spec (paths : List importPath) (pkg : String)
    (k : Nat) (r : importPath) (h : selectRule paths pkg = some (k, r)) :
    paths.get? k = some r ∧ isCandidate pkg (splitSlash pkg).length r ∧
      ∀ q ∈ paths, isCandidate pkg (splitSlash pkg).length q →
        q.pfx.length ≤ r.pfx.length := by
  unfold selectRule at h
  rcases selectAux_shape pkg (splitSlash pkg).length paths 0 ⟨none, 0⟩ with
    ⟨hw, _⟩ | ⟨j, q, hj, hc, hw, hp⟩
  · rw [h] at hw; cases hw
  · rw [h] at hw
    have hkr : k = 0 + j ∧ r = q := by simpa [Prod.ext_iff] using hw
    obtain ⟨hk, hr⟩ := hkr
    subst hr
    refine ⟨by rw [hk, Nat.zero_add]; exact hj, hc, ?_⟩
    intro q' hq' hcq'
    have hub := selectAux_ub pkg (splitSlash pkg).length paths 0 ⟨none, 0⟩ q' hq' hcq'
    rwa [hp] at hub

/-- selectRule finds a winner exactly when some rule passes the gate. -/
theorem selectRule_isSome_iff (paths : List importPath) (pkg : String) :
    (selectRule paths pkg).isSome ↔
      ∃ r ∈ paths, isCandidate pkg (splitSlash pkg).length r := by
  constructor
  · intro h
    rcases Option.isSome_iff_exists.mp h with ⟨⟨k, r⟩, hk⟩
    obtain ⟨hg, hc, _⟩ := selectRule_spec paths pkg k r hk
    exact ⟨r, List.get?_mem hg, hc⟩
  · rintro ⟨r, hr, hc⟩
    exact selectAux_isSome pkg (splitSlash pkg).length paths 0 ⟨none, 0⟩ r hr hc
      (Nat.zero_le _)

/-- resolve fails exactly when no rule is selected or the selected
rule's template fails to render. -/
theorem resolve_eq_none_iff (render : Nat → List String → Option String)
    (paths : List importPath) (pkg : String) :
    resolve render paths pkg = none ↔
      selectRule paths pkg = none ∨
      ∃ k r, selectRule paths pkg = some (k, r) ∧
        render k (splitSlash pkg) = none := by
  unfold resolve
  cases hsel : selectRule paths pkg with
  | none => simp
  | some kr =>
    obtain ⟨k, r⟩ := kr
    cases hren : render k (splitSlash pkg) with
    | none => simp [hren]
    | some repo => simp [hren]

/-- Fixture rules for concrete instances. -/
def ruleA : importPath := ⟨"a", 1, "git", "ta"⟩

def ruleAB : importPath := ⟨"a/b", 2, "git", "tab"⟩

def ruleHT : importPath := ⟨"host/team", 3, "git", "tht"⟩

def ruleTie1 : importPath := ⟨"a/b", 2, "git", "t1"⟩

def ruleTie2 : importPath := ⟨"a/b", 2, "git", "t2"⟩

def ruleEx : importPath := ⟨"example.com", 2, "git", "tex"⟩

/-- C1: in any rule table holding two candidate rules whose prefixes
are one a proper prefix of the other, selection returns a winner whose
prefix is at least as long as the longer of the two, and that winner is
never the shorter rule, whatever the declaration order of the two
rules. (A proper prefix is strictly shorter, pfx_proper_lt.) -/
theorem longer_pfx_precedence
    (paths : List importPath) (pkg : String) (i j : Nat) (ri rj : importPath)
    (hi : paths.get? i = some ri) (hj : paths.get? j = some rj)
    (hpp : hasPfx rj.pfx ri.pfx = true) (hne : ri.pfx ≠ rj.pfx)
    (hci : isCandidate pkg (splitSlash pkg).length ri)
    (hcj : isCandidate pkg (splitSlash pkg).length rj) :
    ∃ k r, selectRule paths pkg = some (k, r) ∧
      rj.pfx.length ≤ r.pfx.length ∧ k ≠ i := by
  have hlen : ri.pfx.length < rj.pfx.length := pfx_proper_lt _ _ hpp hne
  have hsome : (selectRule paths pkg).isSome :=
    (selectRule_isSome_iff paths pkg).mpr ⟨rj, List.get?_mem hj, hcj⟩
  rcases Option.isSome_iff_exists.mp hsome with ⟨⟨k, r⟩, hk⟩
  obtain ⟨hg, _, hub⟩ := selectRule_spec paths pkg k r hk
  refine ⟨k, r, hk, hub rj (List.get?_mem hj) hcj, ?_⟩
  intro hki
  subst hki
  rw [hi] at hg
  injection hg with hg'
  subst hg'
  have := hub rj (List.get?_mem hj) hcj
  omega

/-- Witness for C1 at the spec's example pair, shorter rule first. -/
theorem longer_pfx_precedence_witness :
    ∃ k r, selectRule [ruleA, ruleAB] "a/b/c" = some (k, r) ∧
      ruleAB.pfx.length ≤ r.pfx.length ∧ k ≠ 0 :=
  longer_pfx_precedence [ruleA, ruleAB] "a/b/c" 0 1 ruleA ruleAB rfl rfl
    (by decide) (by decide) (by decide) (by decide)

/-- C2: selection finds a winner exactly when some rule passes both the
component gate (NbComponents at most the number of slash-separated
components) and the exact string prefix test; in particular the rule
with Prefix "host/team" and NbComponents 3 does not match the
two-component path "host/team" but matches "host/team/repo". -/
theorem candidate_gate_characterization (paths : List importPath) (pkg : String) :
    ((selectRule paths pkg).isSome ↔
      ∃ r ∈ paths, r.nbComponents ≤ ((splitSlash pkg).length : Int) ∧
        hasPfx pkg r.pfx = true) ∧
    selectRule [ruleHT] "host/team" = none ∧
    selectRule [ruleHT] "host/team/repo" = some (0, ruleHT) :=
  ⟨selectRule_isSome_iff paths pkg, by decide, by decide⟩

/-- C3: a candidate of maximal prefix length that no later candidate
attains is the selected rule: the >= comparison makes a later candidate
of equal length replace the earlier winner, so ties go to the
last-declared candidate of that length. -/
theorem tie_last_declared_wins
    (paths : List importPath) (pkg : String) (j : Nat) (rj : importPath)
    (hj : paths.get? j = some rj)
    (hcj : isCandidate pkg (splitSlash pkg).length rj)
    (hmax : ∀ k rk, paths.get? k = some rk →
      isCandidate pkg (splitSlash pkg).length rk →
      rk.pfx.length ≤ rj.pfx.length)
    (hlast : ∀ k rk, paths.get? k = some rk → j < k →
      isCandidate pkg (splitSlash pkg).length rk →
      rk.pfx.length ≠ rj.pfx.length) :
    selectRule paths pkg = some (j, rj) := by
  unfold selectRule
  have hlast' : ∀ k rk, paths.get? k = some rk → j < k →
      isCandidate pkg (splitSlash pkg).length rk →
      rk.pfx.length < rj.pfx.length :=
    fun k rk hk hlt hck => lt_of_le_of_ne (hmax k rk hk hck) (hlast k rk hk hlt hck)
  rw [selectAux_last pkg (splitSlash pkg).length paths 0 ⟨none, 0⟩ j rj hj hcj
    (Nat.zero_le _) hmax hlast']
  simp

/-- Witness for C3: two rules with the same prefix "a/b", the
later-declared one wins. -/
theorem tie_last_declared_wins_witness :
    selectRule [ruleTie1, ruleTie2] "a/b/c" = some (1, ruleTie2) :=
  tie_last_declared_wins [ruleTie1, ruleTie2] "a/b/c" 1 ruleTie2 rfl (by decide)
    (by
      intro k rk hk hck
      rcases k with _ | k1
      · have h0 : ruleTie1 = rk := by simpa using hk
        rw [← h0]; decide
      · rcases k1 with _ | k2
        · have h1 : ruleTie2 = rk := by simpa using hk
          rw [← h1]
        · simp [List.get?_cons_succ, List.get?_nil] at hk)
    (by
      intro k rk hk hlt hck
      rcases k with _ | k1
      · omega
      · rcases k1 with _ | k2
        · omega
        · simp [List.get?_cons_succ, List.get?_nil] at hk)

/-- C4: every successful resolution carries as its Prefix field the
join of the first NbComponents components of the package path, for the
selected rule; the spec's two-component instance follows. -/
theorem import_pfx_derivation (render : Nat → List String → Option String)
    (paths : List importPath) (pkg : String) (mi : metaImport)
    (h : resolve render paths pkg = some mi) :
    (∃ k r, selectRule paths pkg = some (k, r) ∧
      mi.pfx = joinSlash ((splitSlash pkg).take r.nbComponents.toNat)) ∧
    joinSlash ((splitSlash "example.com/pkg/sub").take 2) = "example.com/pkg" := by
  refine ⟨?_, by decide⟩
  unfold resolve at h
  split at h
  · cases h
  · rename_i k r heq
    split at h
    · cases h
    · injection h with h'
      exact ⟨k, r, heq, by rw [← h']⟩

/-- Witness for C4 at the spec's example path. -/
theorem import_pfx_derivation_witness :
    (∃ k r, selectRule [ruleEx] "example.com/pkg/sub" = some (k, r) ∧
      (⟨"example.com/pkg", "git", "REPO"⟩ : metaImport).pfx
        = joinSlash ((splitSlash "example.com/pkg/sub").take r.nbComponents.toNat)) ∧
    joinSlash ((splitSlash "example.com/pkg/sub").take 2) = "example.com/pkg" :=
  import_pfx_derivation (fun _ _ => some "REPO") [ruleEx] "example.com/pkg/sub"
    ⟨"example.com/pkg", "git", "REPO"⟩ (by decide)

/-- C5: buildRules keeps every field of every rule except that a
non-positive NbComponents becomes the component count of the rule's own
Prefix, while a positive one is kept unchanged. -/
theorem nb_components_defaulting (parses : String → Bool)
    (cfg rt : List importPath) (h : buildRules parses cfg = some rt) :
    rt.length = cfg.length ∧
    ∀ j p, cfg.get? j = some p →
      ∃ q, rt.get? j = some q ∧ q.pfx = p.pfx ∧ q.VCS = p.VCS ∧
        q.repoTemplate = p.repoTemplate ∧
        (p.nbComponents ≤ 0 →
          q.nbComponents = ((splitSlash p.pfx).length : Int)) ∧
        (0 < p.nbComponents → q.nbComponents = p.nbComponents) := by
  have hrt := buildRules_eq parses cfg rt h
  subst hrt
  refine ⟨List.length_map _ _, ?_⟩
  intro j p hp
  refine ⟨defaultNbComponents p, ?_, defaultNb_pfx p, defaultNb_vcs p,
    defaultNb_tmpl p, fun h0 => defaultNb_of_nonpos p h0,
    fun h0 => defaultNb_of_pos p h0⟩
  rw [List.get?_map, hp]
  rfl

/-- Witness for C5: one rule gets the default, one keeps its value. -/
theorem nb_components_defaulting_witness :
    ([⟨"a/b", 2, "git", "t"⟩, ⟨"a", 5, "git", "t"⟩] : List importPath).length
      = ([⟨"a/b", 0, "git", "t"⟩, ⟨"a", 5, "git", "t"⟩] : List importPath).length ∧
    ∀ j p, ([⟨"a/b", 0, "git", "t"⟩, ⟨"a", 5, "git", "t"⟩] : List importPath).get? j
        = some p →
      ∃ q, ([⟨"a/b", 2, "git", "t"⟩, ⟨"a", 5, "git", "t"⟩] : List importPath).get? j
          = some q ∧ q.pfx = p.pfx ∧ q.VCS = p.VCS ∧
        q.repoTemplate = p.repoTemplate ∧
        (p.nbComponents ≤ 0 →
          q.nbComponents = ((splitSlash p.pfx).length : Int)) ∧
        (0 < p.nbComponents → q.nbComponents = p.nbComponents) :=
  nb_components_defaulting (fun _ => true)
    [⟨"a/b", 0, "git", "t"⟩, ⟨"a", 5, "git", "t"⟩]
    [⟨"a/b", 2, "git", "t"⟩, ⟨"a", 5, "git", "t"⟩] (by decide)

/-- C6: without a go-get query parameter equal to "1" the handler
returns BadRequest (carrying no body), for every rule table, host and
path: the outcome is reached before any rule matching. -/
theorem non_go_get_bad_request (render : Nat → List String → Option String)
    (paths : List importPath) (goGet : Option String) (host urlPath : String)
    (h : goGet.getD "" ≠ "1") :
    handler render paths goGet host urlPath = Outcome.badRequest := by
  unfold handler
  rw [if_pos h]

/-- Witness for C6: missing parameter. -/
theorem non_go_get_bad_request_witness :
    handler (fun _ _ => some "R") [ruleA] none "example.com" "/x"
      = Outcome.badRequest :=
  non_go_get_bad_request (fun _ _ => some "R") [ruleA] none "example.com" "/x"
    (by decide)

/-- C7: for a go-get request the outcome is NotFound exactly when no
rule passes the gate or the selected rule's template fails to render;
the handler returns an outcome in both cases, so the failure stays
per-request. -/
theorem not_found_exactly_two_cases
    (render : Nat → List String → Option String) (paths : List importPath)
    (goGet : Option String) (host urlPath : String)
    (h : goGet.getD "" = "1") :
    handler render paths goGet host urlPath = Outcome.notFound ↔
      selectRule paths (host ++ urlPath) = none ∨
      ∃ k r, selectRule paths (host ++ urlPath) = some (k, r) ∧
        render k (splitSlash (host ++ urlPath)) = none := by
  unfold handler
  rw [if_neg (by simp [h])]
  rw [← resolve_eq_none_iff render paths (host ++ urlPath)]
  cases hres : resolve render paths (host ++ urlPath) with
  | none => simp [hres]
  | some mi => simp [hres]

/-- Witness for C7: empty table, no candidate, NotFound. -/
theorem not_found_exactly_two_cases_witness :
    handler (fun _ _ => some "R") [] (some "1") "x" "/y" = Outcome.notFound ↔
      selectRule [] ("x" ++ "/y") = none ∨
      ∃ k r, selectRule [] ("x" ++ "/y") = some (k, r) ∧
        (fun (_ : Nat) (_ : List String) => some "R") k (splitSlash ("x" ++ "/y"))
          = none :=
  not_found_exactly_two_cases (fun _ _ => some "R") [] (some "1") "x" "/y" rfl

/-- C8 is refuted on the final variant: its construction loop performs
no emptiness check, so a configuration with an empty Prefix in one rule
and an empty RepoTemplate in another builds successfully (the template
engine parses both the empty and the plain string, as Go's does) and
the rules are stored for serving. -/
theorem construction_accepts_empty_counterexample :
    buildRules (fun _ => true)
        [⟨"", 0, "git", "x"⟩, ⟨"a", 0, "git", ""⟩]
      = some [⟨"", 1, "git", "x"⟩, ⟨"a", 1, "git", ""⟩] := by decide

/-- C8 amended: the rejection of empty Prefix or RepoTemplate exists
only in the validator variant (src/main.go): a configuration passing
its required-field validation holds only rules with non-empty Prefix
and RepoTemplate, so in that variant every rule stored at serving time
is non-empty. -/
theorem validator_rejects_empty (l : List importPathV)
    (h : validPaths l = true) :
    ∀ p ∈ l, p.pfx ≠ "" ∧ p.repoTemplate ≠ "" := by
  intro p hp
  unfold validPaths at h
  simp only [Bool.and_eq_true, List.all_eq_true, decide_eq_true_eq] at h
  have hr := h.2 p hp
  unfold validRule at hr
  simp only [Bool.and_eq_true, bne_iff_ne, ne_eq] at hr
  exact hr

/-- Witness for the amended C8. -/
theorem validator_rejects_empty_witness :
    (⟨"a", "git", "t"⟩ : importPathV).pfx ≠ "" ∧
      (⟨"a", "git", "t"⟩ : importPathV).repoTemplate ≠ "" :=
  validator_rejects_empty [⟨"a", "git", "t"⟩] (by decide)
    ⟨"a", "git", "t"⟩ (by decide)

/-- C9: resolution and template rendering are deterministic: identical
inputs give identical results, and rendering the same template twice on
the same segments gives identical output. The embedding is state-free,
so purity is structural; this theorem records it against resolve. -/
theorem resolution_deterministic
    (render render' : Nat → List String → Option String)
    (paths paths' : List importPath) (pkg pkg' : String)
    (k : Nat) (cs : List String)
    (h1 : render = render') (h2 : paths = paths') (h3 : pkg = pkg') :
    resolve render paths pkg = resolve render' paths' pkg' ∧
      render k cs = render k cs := by
  subst h1; subst h2; subst h3
  exact ⟨rfl, rfl⟩

/-- Witness for C9. -/
theorem resolution_deterministic_witness :
    resolve (fun _ _ => some "R") [ruleA] "a/b"
        = resolve (fun _ _ => some "R") [ruleA] "a/b" ∧
      (fun (_ : Nat) (_ : List String) => some "R") 0 ["a"]
        = (fun (_ : Nat) (_ : List String) => some "R") 0 ["a"] :=
  resolution_deterministic (fun _ _ => some "R") (fun _ _ => some "R")
    [ruleA] [ruleA] "a/b" "a/b" 0 ["a"] rfl rfl rfl

/-- C10: on a table built by buildRules the selected rule's
NbComponents is positive and at most the number of components of the
package path, so the Go slice components[:NbComponents] taken by the
Prefix computation is in range for every matched request. -/
theorem take_components_in_range (parses : String → Bool)
    (cfg rt : List importPath) (pkg : String) (k : Nat) (r : importPath)
    (hb : buildRules parses cfg = some rt)
    (hs : selectRule rt pkg = some (k, r)) :
    0 < r.nbComponents ∧ r.nbComponents ≤ ((splitSlash pkg).length : Int) ∧
      ((splitSlash pkg).take r.nbComponents.toNat).length
        = r.nbComponents.toNat := by
  obtain ⟨hg, hc, _⟩ := selectRule_spec rt pkg k r hs
  obtain ⟨hc1, hc2⟩ := hc
  have hpos : 0 < r.nbComponents :=
    buildRules_nb_pos parses cfg rt hb r (List.get?_mem hg)
  refine ⟨hpos, hc1, ?_⟩
  rw [List.length_take]
  omega

/-- Witness for C10. -/
theorem take_components_in_range_witness :
    0 < (importPath.nbComponents ⟨"a", 1, "git", "t"⟩) ∧
      (importPath.nbComponents ⟨"a", 1, "git", "t"⟩)
        ≤ ((splitSlash "a/b").length : Int) ∧
      ((splitSlash "a/b").take
          (importPath.nbComponents ⟨"a", 1, "git", "t"⟩).toNat).length
        = (importPath.nbComponents ⟨"a", 1, "git", "t"⟩).toNat :=
  take_components_in_range (fun _ => true) [⟨"a", 0, "git", "t"⟩]
    [⟨"a", 1, "git", "t"⟩] "a/b" 0 ⟨"a", 1, "git", "t"⟩ (by decide) (by decide)

